import Mathlib

/-!
Verification of the jigo template-language front end (tokenizer, AST,
context stack) against its natural-language specification.

The Go sources embedded here are `src/v1/ast.go` (AST node model plus the
state-machine lexer) and the context tests in `src/unnamed/part_000`.
Go strings are modelled at the byte level (`List Nat` of UTF-8 bytes) where
the lexer manipulates byte offsets, and as Lean `String` at the AST level.
Machine integers (`int64`) are modelled as `Int` with explicit range checks.
-/

/-! ## UTF-8 byte model

The Go lexer tracks `pos` as a byte offset and decodes one rune at a time
with `utf8.DecodeRuneInString`.  We model the input as a `List Char` and
compute byte widths from the UTF-8 encoding of each character. -/

/-- The UTF-8 bytes of one character, as natural numbers. -/
def charBytes (c : Char) : List Nat :=
  (String.utf8EncodeChar c).map UInt8.toNat

/-- Byte width of one character (the `w` returned by `DecodeRuneInString`). -/
def charWidth (c : Char) : Nat :=
  (charBytes c).length

/-- All UTF-8 bytes of a character sequence. -/
def bytesOf : List Char → List Nat
  | [] => []
  | c :: cs => charBytes c ++ bytesOf cs

/-- `len(input)` in Go: the byte length of the input. -/
def byteLen (cs : List Char) : Nat :=
  (bytesOf cs).length

/-- `utf8.RuneError`, returned by the decoder on empty or invalid input. -/
def runeError : Char := Char.ofNat 0xFFFD

/-- Model of `utf8.DecodeRuneInString(input[p:])`: returns the rune starting
at byte offset `p` together with its byte width.  On an empty remainder it
returns `(RuneError, 0)`; at an offset inside a multi-byte character (an
invalid start byte) it returns `(RuneError, 1)`, as the Go decoder does. -/
def decodeAt : List Char → Nat → Char × Nat
  | [], _ => (runeError, 0)
  | c :: cs, p =>
    if p = 0 then (c, charWidth c)
    else if p < charWidth c then (runeError, 1)
    else decodeAt cs (p - charWidth c)

theorem charWidth_pos (c : Char) : 1 ≤ charWidth c := by
  simp only [charWidth, charBytes, String.utf8EncodeChar, List.length_map]
  repeat' split
  all_goals simp

theorem byteLen_cons (c : Char) (cs : List Char) :
    byteLen (c :: cs) = charWidth c + byteLen cs := by
  simp [byteLen, bytesOf, charWidth, charBytes]

/-- When the offset is strictly inside the input, the decoder makes progress
and never overruns: the width is at least one byte and the offset plus the
width stays within the byte length. -/
theorem decodeAt_bound (cs : List Char) (p : Nat) (h : p < byteLen cs) :
    1 ≤ (decodeAt cs p).2 ∧ p + (decodeAt cs p).2 ≤ byteLen cs := by
  induction cs generalizing p with
  | nil => simp [byteLen, bytesOf] at h
  | cons c rest ih =>
    rw [byteLen_cons] at h ⊢
    by_cases h0 : p = 0
    · subst h0
      simp [decodeAt, charWidth_pos c, Nat.le_add_right]
    · by_cases h1 : p < charWidth c
      · simp only [decodeAt, h0, if_false, h1, if_true]
        omega
      · simp only [decodeAt, h0, if_false, h1, if_true]
        have := ih (p - charWidth c) (by omega)
        omega

/-! ## Token model (`itemType`, `item`)

The full token-kind enumeration from the source.  `item.val` is the raw
byte slice of the input (a Go string), modelled as `List Nat`. -/

inductive ItemType where
  | tokenAdd
  | tokenAssign
  | tokenColon
  | tokenComma
  | tokenDiv
  | tokenDot
  | tokenEq
  | tokenFloordiv
  | tokenGt
  | tokenGteq
  | tokenLbrace
  | tokenLbracket
  | tokenLparen
  | tokenLt
  | tokenLteq
  | tokenMod
  | tokenMul
  | tokenNe
  | tokenPipe
  | tokenPow
  | tokenRbrace
  | tokenRbracket
  | tokenRparen
  | tokenSemicolon
  | tokenSub
  | tokenTilde
  | tokenWhitespace
  | tokenFloat
  | tokenInteger
  | tokenName
  | tokenString
  | tokenOperator
  | tokenBlockBegin
  | tokenBlockEnd
  | tokenVariableBegin
  | tokenVariableEnd
  | tokenRawBegin
  | tokenRawEnd
  | tokenCommentBegin
  | tokenCommentEnd
  | tokenComment
  | tokenLinestatementBegin
  | tokenLinestatementEnd
  | tokenLinecommentBegin
  | tokenLinecommentEnd
  | tokenLinecomment
  | tokenText
  | tokenInitial
  | tokenEOF
  | tokenError
  /-- Modelled from the spec: `tokenBool` is referenced by `newLiteral`
  (`case tokenBool`) but its declaration is not in the visible source; the
  spec's token enumeration lists a boolean literal kind. -/
  | tokenBool
deriving DecidableEq

/-- `item`: a token or text string returned from the scanner. -/
structure Item where
  typ : ItemType
  pos : Int
  val : List Nat
deriving DecidableEq

/-! ## Lexer state

Mirrors the `lexer` struct fields used by the scanning states: the input,
the left delimiter, the cursor `pos`, pending-item `start`, last-rune
`width`, and the emitted items (the `items` channel, modelled as the list
of items emitted so far, in order).  The fields used only for error
reports (`name`, `filename`, `lastPos`) and the as-yet-unused
`rightDelim`/config strings are omitted.  `pos`, `start` and `width` are
`int`-backed (`Pos`) in Go, so they are modelled as `Int`. -/

structure LexState where
  input : List Char
  leftDelim : List Char
  pos : Int
  start : Int
  width : Int
  items : List Item
deriving DecidableEq

/-- `next`: returns the next rune in the input, advancing the cursor; at end
of input it returns the `eof` sentinel (modelled as `none`) and sets the
width to zero without moving.  (For a negative `pos` Go would panic slicing
the input; the theorems establish `pos` never becomes negative, so the
`toNat` coercion in the in-bounds branch is only exercised at `pos ≥ 0`.) -/
def next (l : LexState) : Option Char × LexState :=
  if (byteLen l.input : Int) ≤ l.pos then (none, { l with width := 0 })
  else
    let cw := decodeAt l.input l.pos.toNat
    (some cw.1, { l with width := (cw.2 : Int), pos := l.pos + (cw.2 : Int) })

/-- `backup`: steps back one rune; can only be called once per call of `next`. -/
def backup (l : LexState) : LexState :=
  { l with pos := l.pos - l.width }

/-- The byte slice `input[a:b]`. -/
def sliceBytes (input : List Char) (a b : Int) : List Nat :=
  ((bytesOf input).drop a.toNat).take (b - a).toNat

/-- `emit`: passes the pending item `input[start:pos]` back to the client and
moves `start` up to `pos`. -/
def emit (l : LexState) (t : ItemType) : LexState :=
  { l with
    items := l.items ++ [⟨t, l.start, sliceBytes l.input l.start l.pos⟩]
    start := l.pos }

/-- Identifier of a scanning state (`stateFn`).  The source currently has a
single state, `lexText`; a `nil` state function is `none` below. -/
inductive StateId where
  | lexTextS
deriving DecidableEq

/-- `errorf`: emits a single error token carrying the (already formatted)
message and the pending item's start position, and returns a `nil`
continuation state, terminating the scan. -/
def errorf (l : LexState) (msg : List Nat) : LexState × Option StateId :=
  ({ l with items := l.items ++ [⟨.tokenError, l.start, msg⟩] }, none)

/-- `strings.HasPrefix(input[pos:], leftDelim)`, at the byte level. -/
def hasPrefixFrom (input : List Char) (pos : Int) (delim : List Char) : Bool :=
  List.isPrefixOf (bytesOf delim) ((bytesOf input).drop pos.toNat)

/-- `lexText`: scans until the left delimiter or end of input.  The `fuel`
parameter is only a structural-recursion device for the inner `for` loop
(`none` = fuel exhausted); every claim supplies enough fuel.  Mirrors:
the loop checks for the left delimiter (emitting the pending text if
non-empty and handing control back, intended for `lexLeftDelim`), otherwise
advances with `next` until `eof`; after the loop it emits the pending text
if non-empty, then the EOF token, and returns the `nil` state. -/
def lexTextF : Nat → LexState → Option (LexState × Option StateId)
  | 0, _ => none
  | fuel + 1, l =>
    if hasPrefixFrom l.input l.pos l.leftDelim then
      some (if l.start < l.pos then emit l .tokenText else l, some .lexTextS)
    else
      match next l with
      | (none, l1) =>
        let l2 := if l1.start < l1.pos then emit l1 .tokenText else l1
        some (emit l2 .tokenEOF, none)
      | (some _, l1) => lexTextF fuel l1

/-- `run`: drives the state machine until the state function becomes `nil`.
`none` means the machine had not terminated within `fuel` steps. -/
def runF : Nat → Option StateId → LexState → Option LexState
  | _, none, l => some l
  | 0, some _, _ => none
  | fuel + 1, some .lexTextS, l =>
    match lexTextF (fuel + 1) l with
    | none => none
    | some (l1, st1) => runF fuel st1 l1

/-- `l.run()` starting, as in the source, from the `lexText` state. -/
def runLexer (fuel : Nat) (l : LexState) : Option LexState :=
  runF fuel (some .lexTextS) l

/-! ## Claim C3: termination of the scan -/

/-- An input containing the configured left delimiter: `"a{%b"` with
delimiters `{% %}`. -/
def demoLex3 : LexState :=
  { input := ['a', '{', '%', 'b'], leftDelim := ['{', '%'],
    pos := 0, start := 0, width := 0, items := [] }

/-- `demoLex3` after one advance, just before the delimiter is found. -/
def demoLex3Mid : LexState :=
  { input := ['a', '{', '%', 'b'], leftDelim := ['{', '%'],
    pos := 1, start := 0, width := 1, items := [] }

/-- `demoLex3` after `lexText` has emitted the leading text token and
handed control back at the delimiter. -/
def demoLex3After : LexState :=
  { input := ['a', '{', '%', 'b'], leftDelim := ['{', '%'],
    pos := 1, start := 1, width := 1,
    items := [⟨.tokenText, 0, [97]⟩] }

theorem lexTextF_fix (f : Nat) :
    lexTextF (f + 1) demoLex3After = some (demoLex3After, some .lexTextS) := by
  rw [lexTextF]
  rw [if_pos (show hasPrefixFrom demoLex3After.input demoLex3After.pos
        demoLex3After.leftDelim = true from by decide)]
  decide

theorem lexTextF_start (f : Nat) :
    lexTextF (f + 2) demoLex3 = some (demoLex3After, some .lexTextS) := by
  rw [lexTextF]
  rw [if_neg (show ¬ hasPrefixFrom demoLex3.input demoLex3.pos
        demoLex3.leftDelim = true from by decide)]
  rw [show next demoLex3 = (some 'a', demoLex3Mid) from by decide]
  show lexTextF (f + 1) demoLex3Mid = _
  rw [lexTextF]
  rw [if_pos (show hasPrefixFrom demoLex3Mid.input demoLex3Mid.pos
        demoLex3Mid.leftDelim = true from by decide)]
  decide

theorem runF_stuck (f : Nat) : runF f (some .lexTextS) demoLex3After = none := by
  induction f with
  | zero => rfl
  | succ g ih =>
    rw [runF, lexTextF_fix]
    exact ih

/-- Claim C3 (code defect): on an input that contains the configured left
delimiter, the state machine never reaches the `nil` state: upon finding the
delimiter `lexText` returns itself without consuming input (the intended
`lexLeftDelim` state does not exist), so `run` re-enters the same state with
the same cursor forever and no EOF or Error token is ever emitted.  For the
input `"a{%b"` with left delimiter `"{%"`, no amount of fuel makes the run
terminate. -/
theorem lexText_left_delim_nontermination (fuel : Nat) :
    runLexer fuel demoLex3 = none := by
  match fuel with
  | 0 => rfl
  | 1 => decide
  | (g + 2) =>
    rw [runLexer, runF]
    rw [show (g + 1) + 1 = g + 2 from rfl, lexTextF_start]
    exact runF_stuck (g + 1)

/-! ## Claim C10: cursor safety of `next` / `backup` -/

/-- Claim C10: the lexer cursor always stays within bounds.  At end of input
`next` returns the `eof` sentinel, sets the width to zero and does not
advance, so a following `backup` leaves `pos` unchanged; after an in-bounds
`next` a single `backup` restores `pos` exactly; and starting from any
position in `[0, len(input)]`, `next` (with or without a following
`backup`) keeps `pos` within `[0, len(input)]` — it never becomes negative
and never exceeds the byte length of the input. -/
theorem next_backup_cursor_safety (l : LexState) :
    ((byteLen l.input : Int) ≤ l.pos →
      (next l).1 = none ∧ (next l).2.width = 0 ∧ (next l).2.pos = l.pos ∧
      (backup (next l).2).pos = l.pos) ∧
    (0 ≤ l.pos → l.pos < (byteLen l.input : Int) →
      (backup (next l).2).pos = l.pos) ∧
    (0 ≤ l.pos → l.pos ≤ (byteLen l.input : Int) →
      0 ≤ (next l).2.pos ∧ (next l).2.pos ≤ (byteLen l.input : Int) ∧
      0 ≤ (backup (next l).2).pos ∧
      (backup (next l).2).pos ≤ (byteLen l.input : Int)) := by
  refine ⟨?_, ?_, ?_⟩
  · intro h
    simp [next, backup, if_pos h]
  · intro h0 h1
    rw [next, if_neg (by omega)]
    simp [backup]
  · intro h0 h1
    by_cases hle : (byteLen l.input : Int) ≤ l.pos
    · simp [next, backup, if_pos hle]
      omega
    · have hlt : l.pos.toNat < byteLen l.input := by omega
      obtain ⟨hw1, hw2⟩ := decodeAt_bound l.input l.pos.toNat hlt
      rw [next, if_neg hle]
      simp only [backup]
      refine ⟨by omega, by omega, by omega, by omega⟩

/-- A state at the end of its input (`"hé"` is three bytes long). -/
def demoLex10End : LexState :=
  { input := ['h', 'é'], leftDelim := ['{', '%'],
    pos := 3, start := 0, width := 0, items := [] }

/-- A state at the start of the same input. -/
def demoLex10 : LexState :=
  { input := ['h', 'é'], leftDelim := ['{', '%'],
    pos := 0, start := 0, width := 0, items := [] }

theorem next_backup_cursor_safety_witness :
    ((next demoLex10End).1 = none ∧ (next demoLex10End).2.width = 0 ∧
      (next demoLex10End).2.pos = demoLex10End.pos ∧
      (backup (next demoLex10End).2).pos = demoLex10End.pos) ∧
    ((backup (next demoLex10).2).pos = demoLex10.pos) ∧
    (0 ≤ (next demoLex10).2.pos ∧
      (next demoLex10).2.pos ≤ (byteLen demoLex10.input : Int) ∧
      0 ≤ (backup (next demoLex10).2).pos ∧
      (backup (next demoLex10).2).pos ≤ (byteLen demoLex10.input : Int)) :=
  ⟨(next_backup_cursor_safety demoLex10End).1 (by decide),
   (next_backup_cursor_safety demoLex10).2.1 (by decide) (by decide),
   (next_backup_cursor_safety demoLex10).2.2 (by decide) (by decide)⟩

/-! ## Claim C5: `errorf` behaviour -/

/-- Claim C5: `errorf` emits exactly one Error token, carrying the
(formatted) message and the position of the pending item's start
(`l.start`), and returns the `nil` continuation state; consequently running
the state machine from that point emits no further tokens: the loop stops
at once with the state unchanged. -/
theorem errorf_single_error_and_stop (l : LexState) (msg : List Nat) :
    (errorf l msg).1.items = l.items ++ [⟨.tokenError, l.start, msg⟩] ∧
    (errorf l msg).2 = none ∧
    (∀ fuel, runF fuel (errorf l msg).2 (errorf l msg).1 =
      some (errorf l msg).1) := by
  refine ⟨rfl, rfl, fun fuel => ?_⟩
  cases fuel <;> rfl

/-! ## Claim C7: `lexText` at end of input -/

/-- The final `Text` token of a scan that exhausts the input: present
exactly when at least one byte is pending (`start < len`). -/
def pendingTextItems (l : LexState) : List Item :=
  if l.start < (byteLen l.input : Int) then
    [⟨.tokenText, l.start, sliceBytes l.input l.start (byteLen l.input : Int)⟩]
  else []

/-- The lexer state after `lexText` has exhausted the input: the cursor and
pending start sit at the end, and the pending `Text` token (if any) followed
by exactly one EOF token have been emitted. -/
def eofFinal (l : LexState) : LexState :=
  { input := l.input, leftDelim := l.leftDelim,
    pos := (byteLen l.input : Int), start := (byteLen l.input : Int), width := 0,
    items := l.items ++ pendingTextItems l ++ [⟨.tokenEOF, (byteLen l.input : Int), []⟩] }

/-- Claim C7: when `lexText` exhausts the input without finding the left
delimiter at any reachable position, it emits a final `Text` token covering
the pending bytes if and only if at least one byte is pending (`pos > start`
at the end; a zero-width emission is suppressed), then emits exactly one EOF
token and ends the scan (the continuation state is `nil`). -/
theorem lexText_eof_emission (fuel : Nat) : ∀ (l : LexState),
    0 ≤ l.pos → l.start ≤ l.pos → l.pos ≤ (byteLen l.input : Int) →
    byteLen l.input - l.pos.toNat < fuel →
    (∀ j : Nat, l.pos.toNat ≤ j → j ≤ byteLen l.input →
      hasPrefixFrom l.input (j : Int) l.leftDelim = false) →
    lexTextF fuel l = some (eofFinal l, none) := by
  induction fuel with
  | zero =>
    intro l _ _ _ hf _
    omega
  | succ f ih =>
    intro l h0 hsp h1 hf hnd
    have hpf : hasPrefixFrom l.input l.pos l.leftDelim = false := by
      have hh := hnd l.pos.toNat (le_refl _) (by omega)
      rwa [Int.toNat_of_nonneg h0] at hh
    rw [lexTextF, if_neg (by simp [hpf])]
    by_cases hend : (byteLen l.input : Int) ≤ l.pos
    · have hpeq : l.pos = (byteLen l.input : Int) := le_antisymm h1 hend
      rw [next, if_pos hend]
      show some (emit _ .tokenEOF, none) = _
      by_cases hse : l.start < l.pos
      · simp only [emit, eofFinal, pendingTextItems, hpeq, if_pos (hpeq ▸ hse)]
        simp [sliceBytes, List.append_assoc]
      · have hseq : l.start = l.pos := le_antisymm hsp (not_lt.mp hse)
        simp only [emit, eofFinal, pendingTextItems, hpeq, hseq]
        simp [sliceBytes]
    · obtain ⟨hw1, hw2⟩ := decodeAt_bound l.input l.pos.toNat (by omega)
      rw [next, if_neg hend]
      show lexTextF f _ = _
      rw [ih _ (by dsimp only; omega) (by dsimp only; omega) (by dsimp only; omega)
        (by dsimp only; omega)
        (by dsimp only; intro j hj1 hj2; exact hnd j (by omega) hj2)]
      simp [eofFinal, pendingTextItems]

/-- A lexer over `"ab"` with delimiters `{% %}`: the input contains no left
delimiter, so the scan runs to end of input. -/
def demoLex7 : LexState :=
  { input := ['a', 'b'], leftDelim := ['{', '%'],
    pos := 0, start := 0, width := 0, items := [] }

theorem lexText_eof_emission_witness :
    lexTextF 3 demoLex7 = some (eofFinal demoLex7, none) ∧
    (eofFinal demoLex7).items = [⟨.tokenText, 0, [97, 98]⟩, ⟨.tokenEOF, 2, []⟩] :=
  ⟨lexText_eof_emission 3 demoLex7 (by decide) (by decide) (by decide) (by decide)
    (by
      intro j hj1 hj2
      have hb : byteLen demoLex7.input = 2 := by decide
      rw [hb] at hj2
      interval_cases j <;> decide), by decide⟩

/-! ## AST node model (`ast.go`)

One inductive covering the closed set of node variants that implement the
`Node` interface (`Type/String/Copy/Position`).  Children that Go holds
behind `Node` interface values may be `nil` only where the code itself
produces `nil` entries (the `Conditionals` slice of `IfBlockNode` and its
optional `Else`), so those are `Option Node`.  `FloatNode.Value` is a
`float64` in Go; it is modelled as the exact rational parsed from the
literal (IEEE-754 rounding is not modelled). -/

inductive CondKind where
  | ifCond
  | elifCond
deriving DecidableEq

inductive Node where
  | ListNode (pos : Int) (nodes : List Node)
  | TextNode (pos : Int) (txt : String)
  | VarNode (pos : Int) (inner : Node)
  | LookupNode (pos : Int) (name : String)
  | StringNode (pos : Int) (value : String)
  | BoolNode (pos : Int) (value : Bool)
  | IntegerNode (pos : Int) (value : Int)
  | FloatNode (pos : Int) (value : Rat)
  | UnaryNode (pos : Int) (value : Node) (unaryVal : String)
  | AddExpr (pos : Int) (lhs rhs : Node) (opVal : String)
  | MulExpr (pos : Int) (lhs rhs : Node) (opVal : String)
  | MapExpr (pos : Int) (elems : List Node)
  | MapElem (pos : Int) (key value : Node)
  | IndexExpr (pos : Int) (value index : Node)
  | SetNode (pos : Int) (lhs rhs : Node)
  | ConditionalNode (kind : CondKind) (pos : Int) (guard body : Node)
  | IfBlockNode (pos : Int) (conditionals : List (Option Node)) (elseBody : Option Node)
  | ForNode (pos : Int) (forExpr inExpr body : Node)
  | BlockNode (pos : Int) (name : String) (body : Node)

/-- `strconv.FormatInt(v, 10)`. -/
def intRepr (v : Int) : String := toString v

/-- Stands in for `fmt.Sprint` on a `float64`; no claim depends on the
exact float formatting, which is IEEE-754-specific and not modelled. -/
def floatRepr (q : Rat) : String := toString q

/-! The `String()` methods of the node variants, with the process-wide
`textFormat` toggle at its default `"%s"` (raw text).  `fmt.Fprint` renders
a `nil` `Node` interface value as `"<nil>"` (see `condsString`). -/
mutual
def nodeString : Node → String
  | .ListNode _ ns => nodesString ns
  | .TextNode _ txt => txt
  | .VarNode _ inner => "\x7b\x7b " ++ nodeString inner ++ " \x7d\x7d"
  | .LookupNode _ name => name
  | .StringNode _ v => "\"" ++ v ++ "\""
  | .BoolNode _ v => if v then "true" else "false"
  | .IntegerNode _ v => intRepr v
  | .FloatNode _ v => floatRepr v
  | .UnaryNode _ v uv => uv ++ nodeString v
  | .AddExpr _ lhs rhs op => nodeString lhs ++ " " ++ op ++ " " ++ nodeString rhs
  | .MulExpr _ lhs rhs op => nodeString lhs ++ " " ++ op ++ " " ++ nodeString rhs
  | .MapExpr _ elems => "\x7b" ++ elemsString elems ++ "\x7d"
  | .MapElem _ k v => nodeString k ++ ": " ++ nodeString v
  | .IndexExpr _ v i => nodeString v ++ "[" ++ nodeString i ++ "]"
  | .SetNode _ l r => "\x7b% set " ++ nodeString l ++ " = " ++ nodeString r ++ " %\x7d"
  | .ConditionalNode k _ g b =>
    (match k with
     | .ifCond => "\x7b% if " ++ nodeString g ++ " %\x7d"
     | .elifCond => "\x7b% elif " ++ nodeString g ++ " %\x7d") ++ nodeString b
  | .IfBlockNode _ conds els =>
    condsString conds ++
      (match els with
       | some e => "\x7b% else %\x7d" ++ nodeString e
       | none => "") ++ "\x7b% endif %\x7d"
  | .ForNode _ f i b =>
    "\x7b% for " ++ nodeString f ++ " in " ++ nodeString i ++ " %\x7d" ++
      nodeString b ++ "\x7b% endfor %\x7d"
  | .BlockNode _ name b =>
    "\x7b% block " ++ name ++ " %\x7d" ++ nodeString b ++ "\x7b% endblock %\x7d"

/-- `ListNode.String`: prints each element node in lexical order. -/
def nodesString : List Node → String
  | [] => ""
  | n :: rest => nodeString n ++ nodesString rest

/-- `MapExpr.String` element loop: `", "` between consecutive elements. -/
def elemsString : List Node → String
  | [] => ""
  | [n] => nodeString n
  | n :: rest => nodeString n ++ ", " ++ elemsString rest

/-- `IfBlockNode.String` conditional loop: `fmt.Fprint` of each entry of the
`Conditionals` slice; a `nil` interface entry prints as `"<nil>"`. -/
def condsString : List (Option Node) → String
  | [] => ""
  | some c :: rest => nodeString c ++ condsString rest
  | none :: rest => "<nil>" ++ condsString rest
end

/-! The `Copy()` methods, value-level: for variants whose `Copy` aliases its
children (`VarNode`, `UnaryNode`, `AddExpr`, `MulExpr`, `MapElem`,
`IndexExpr`) the child value carries over unchanged; `IfBlockNode.Copy`
first allocates `make([]Node, len(Conditionals))` — `len` nil interface
entries — and then appends one copy per original entry, so the copied
sequence is `replicate len none ++ copies`.  (Calling `Copy` on a `nil`
conditional entry would panic in Go; such entries are only produced by
`Copy` itself and are mapped through unchanged here.) -/
mutual
def copyN : Node → Node
  | .ListNode pos ns => .ListNode pos (copyNodes ns)
  | .TextNode pos txt => .TextNode pos txt
  | .VarNode pos inner => .VarNode pos inner
  | .LookupNode pos name => .LookupNode pos name
  | .StringNode pos v => .StringNode pos v
  | .BoolNode pos v => .BoolNode pos v
  | .IntegerNode pos v => .IntegerNode pos v
  | .FloatNode pos v => .FloatNode pos v
  | .UnaryNode pos v uv => .UnaryNode pos v uv
  | .AddExpr pos l r op => .AddExpr pos l r op
  | .MulExpr pos l r op => .MulExpr pos l r op
  | .MapExpr pos elems => .MapExpr pos (copyNodes elems)
  | .MapElem pos k v => .MapElem pos k v
  | .IndexExpr pos v i => .IndexExpr pos v i
  | .SetNode pos l r => .SetNode pos (copyN l) (copyN r)
  | .ConditionalNode k pos g b => .ConditionalNode k pos (copyN g) (copyN b)
  | .IfBlockNode pos conds els =>
    .IfBlockNode pos (List.replicate conds.length none ++ copyConds conds)
      (match els with
       | some e => some (copyN e)
       | none => none)
  | .ForNode pos f i b => .ForNode pos (copyN f) (copyN i) (copyN b)
  | .BlockNode pos name b => .BlockNode pos name (copyN b)

def copyNodes : List Node → List Node
  | [] => []
  | n :: rest => copyN n :: copyNodes rest

def copyConds : List (Option Node) → List (Option Node)
  | [] => []
  | some c :: rest => some (copyN c) :: copyConds rest
  | none :: rest => none :: copyConds rest
end

/-! ## Claim C1: rendering after deep copy -/

/-- A one-conditional if block, `{% if true %}{% endif %}`. -/
def ifDemo : Node :=
  .IfBlockNode 0
    [some (.ConditionalNode .ifCond 0 (.BoolNode 0 true) (.ListNode 0 []))] none

/-- Claim C1 (code defect): the rendering of a deep copy does NOT always
equal the original's rendering.  `IfBlockNode.Copy` pre-sizes the copied
`Conditionals` slice to the original length and then appends, leaving `len`
leading `nil` entries, each of which renders as `"<nil>"`.  For a block
with one conditional, the copy renders with a spurious leading `"<nil>"`. -/
theorem ifBlock_copy_changes_rendering :
    nodeString (copyN ifDemo) ≠ nodeString ifDemo ∧
    nodeString ifDemo = "\x7b% if true %\x7d\x7b% endif %\x7d" ∧
    nodeString (copyN ifDemo) = "<nil>\x7b% if true %\x7d\x7b% endif %\x7d" := by
  refine ⟨by decide, by decide, by decide⟩

/-! ## Claim C8: rendering of `ListNode` -/

theorem string_join_cons (a : String) (l : List String) :
    String.join (a :: l) = a ++ String.join l := by
  apply String.ext
  simp [String.data_join]

theorem nodesString_eq_join (ns : List Node) :
    nodesString ns = String.join (ns.map nodeString) := by
  induction ns with
  | nil => rfl
  | cons n rest ih => rw [nodesString, ih, List.map_cons, string_join_cons]

/-- Claim C8: `ListNode.String()` is the concatenation, in lexical order, of
the renderings of its element nodes; in particular an empty `ListNode`
renders as the empty string. -/
theorem listNode_string_concat (pos : Int) (ns : List Node) :
    nodeString (.ListNode pos ns) = String.join (ns.map nodeString) ∧
    nodeString (.ListNode pos []) = "" :=
  ⟨nodesString_eq_join ns, rfl⟩

/-! ## Literal construction (`newLiteral`) and its `strconv` models -/

/-- Base-10 value of a digit string. -/
def digitsToNat (ds : List Char) : Nat :=
  ds.foldl (fun acc c => 10 * acc + (c.toNat - '0'.toNat)) 0

/-- Model of `strconv.ParseInt(val, 10, 64)`: an optional single leading
sign followed by at least one decimal digit; the value must fit a signed
64-bit integer.  (On range overflow Go returns a clamped value together
with `ErrRange`; `newLiteral` only inspects the error, so overflow is
`none` here.) -/
def parseInt10 (s : String) : Option Int :=
  match s.toList with
  | [] => none
  | c :: rest =>
    let signed := if c = '-' then (true, rest)
                  else if c = '+' then (false, rest)
                  else (false, c :: rest)
    if signed.2.isEmpty then none
    else if signed.2.all Char.isDigit then
      let v : Int := if signed.1 then -(digitsToNat signed.2 : Int)
                     else (digitsToNat signed.2 : Int)
      if -(2 ^ 63) ≤ v ∧ v ≤ 2 ^ 63 - 1 then some v else none
    else none

/-- Syntactic part of the model of `strconv.ParseFloat(val, 64)`, restricted
to the plain decimal forms `[sign] digits [. digits] [(e|E) [sign] digits]`
(with at least one mantissa digit); hexadecimal floats, `inf`/`nan`
specials and digit-separating underscores are not modelled.  Returns the
sign, integer digits, fraction digits, exponent sign and exponent digits. -/
def parseFloatSyntax (s : String) :
    Option (Bool × List Char × List Char × Bool × List Char) :=
  match s.toList with
  | [] => none
  | c0 :: rest0 =>
    let signed := if c0 = '-' then (true, rest0)
                  else if c0 = '+' then (false, rest0)
                  else (false, c0 :: rest0)
    let ip := signed.2.takeWhile Char.isDigit
    let cs1 := signed.2.dropWhile Char.isDigit
    let fpr : List Char × List Char :=
      match cs1 with
      | '.' :: t => (t.takeWhile Char.isDigit, t.dropWhile Char.isDigit)
      | _ => ([], cs1)
    if ip.isEmpty ∧ fpr.1.isEmpty then none
    else
      match fpr.2 with
      | [] => some (signed.1, ip, fpr.1, false, [])
      | e :: t =>
        if e = 'e' ∨ e = 'E' then
          match t with
          | [] => none
          | c1 :: t1 =>
            let esigned := if c1 = '-' then (true, t1)
                           else if c1 = '+' then (false, t1)
                           else (false, c1 :: t1)
            if esigned.2.isEmpty then none
            else if esigned.2.all Char.isDigit then
              some (signed.1, ip, fpr.1, esigned.1, esigned.2)
            else none
        else none

/-- The exact rational value of a parsed decimal float (IEEE-754 rounding
to the nearest `float64` is not modelled; the value is kept exact). -/
def floatVal (neg : Bool) (ip fp : List Char) (eneg : Bool) (eds : List Char) : Rat :=
  let mant : Rat := (digitsToNat ip : Rat) + (digitsToNat fp : Rat) / ((10 : Rat) ^ fp.length)
  let sm := if neg then -mant else mant
  let ev : Int := if eneg then -(digitsToNat eds : Int) else (digitsToNat eds : Int)
  sm * (10 : Rat) ^ ev

/-- Model of `strconv.ParseFloat(val, 64)` (see `parseFloatSyntax`). -/
def parseFloat64 (s : String) : Option Rat :=
  (parseFloatSyntax s).map fun t => floatVal t.1 t.2.1 t.2.2.1 t.2.2.2.1 t.2.2.2.2

/-- `newLiteral`: builds a literal node from a literal token.  A lexeme that
fails to parse as its declared kind makes Go `panic(err)`, modelled as
`Except.error`; so does an unexpected literal token type. -/
def newLiteral (pos : Int) (typ : ItemType) (val : String) : Except String Node :=
  match typ with
  | .tokenFloat =>
    match parseFloat64 val with
    | some q => .ok (.FloatNode pos q)
    | none => .error ("panic: ParseFloat: " ++ val)
  | .tokenInteger =>
    match parseInt10 val with
    | some n => .ok (.IntegerNode pos n)
    | none => .error ("panic: ParseInt: " ++ val)
  | .tokenString => .ok (.StringNode pos val)
  | .tokenBool => .ok (.BoolNode pos (val == "true"))
  | _ => .error "panic: unexpected literal type"

/-- Whatever `parseInt10` accepts fits in a signed 64-bit integer. -/
theorem parseInt10_range (s : String) (n : Int) (h : parseInt10 s = some n) :
    -(2 ^ 63) ≤ n ∧ n ≤ 2 ^ 63 - 1 := by
  rw [parseInt10] at h
  rcases hl : s.toList with _ | ⟨c, rest⟩ <;> rw [hl] at h
  · simp at h
  · simp only [] at h
    split_ifs at h
    all_goals (rw [Option.some.injEq] at h; subst h; assumption)

/-! ## Claim C6 -/

/-- Claim C6: `newLiteral` parses an integer literal's lexeme as base-10
signed 64-bit (an `IntegerNode` with that value, necessarily in the
`int64` range) and a float literal's lexeme as a `float64` (a `FloatNode`
with the parsed value); when the lexeme cannot be parsed as its declared
kind it panics (modelled as `Except.error`), never returning a zero-valued
node or a recoverable user-facing error. -/
theorem newLiteral_literal_fault (pos : Int) (val : String) :
    (∀ n, parseInt10 val = some n →
      newLiteral pos .tokenInteger val = .ok (.IntegerNode pos n) ∧
      -(2 ^ 63) ≤ n ∧ n ≤ 2 ^ 63 - 1) ∧
    (parseInt10 val = none →
      newLiteral pos .tokenInteger val = .error ("panic: ParseInt: " ++ val)) ∧
    (∀ q, parseFloat64 val = some q →
      newLiteral pos .tokenFloat val = .ok (.FloatNode pos q)) ∧
    (parseFloat64 val = none →
      newLiteral pos .tokenFloat val = .error ("panic: ParseFloat: " ++ val)) := by
  refine ⟨fun n h => ⟨by simp [newLiteral, h], parseInt10_range val n h⟩,
    fun h => by simp [newLiteral, h],
    fun q h => by simp [newLiteral, h],
    fun h => by simp [newLiteral, h]⟩

theorem newLiteral_literal_fault_witness :
    newLiteral 0 .tokenInteger "-42" = .ok (.IntegerNode 0 (-42)) ∧
    newLiteral 0 .tokenInteger "9223372036854775808" =
      .error ("panic: ParseInt: " ++ "9223372036854775808") ∧
    newLiteral 0 .tokenFloat "2.5" = .ok (.FloatNode 0 (5 / 2)) ∧
    newLiteral 0 .tokenFloat "x" = .error ("panic: ParseFloat: " ++ "x") := by
  have h1 := ((newLiteral_literal_fault 0 "-42").1 (-42) (by decide)).1
  have h2 := (newLiteral_literal_fault 0 "9223372036854775808").2.1 (by decide)
  have hq : parseFloat64 "2.5" = some (5 / 2) := by
    rw [parseFloat64,
      show parseFloatSyntax "2.5" = some (false, ['2'], ['5'], false, []) from by decide]
    rw [Option.map_some']
    have hv : floatVal false ['2'] ['5'] false [] = 5 / 2 := by
      rw [floatVal, show digitsToNat ['2'] = 2 from by decide,
        show digitsToNat ['5'] = 5 from by decide,
        show digitsToNat [] = 0 from rfl]
      norm_num
    rw [hv]
  have h3 := (newLiteral_literal_fault 0 "2.5").2.2.1 (5 / 2) hq
  have h4 := (newLiteral_literal_fault 0 "x").2.2.2 (by rfl)
  exact ⟨h1, h2, h3, h4⟩

/-! ## Claim C9 -/

/-- Claim C9: for a boolean literal token, `newLiteral` returns a `BoolNode`
whose value is `true` exactly when the lexeme is the string `"true"`
(case-sensitively); any other lexeme yields a `BoolNode` with value
`false`, never an error or fault. -/
theorem newLiteral_bool_case_sensitive (pos : Int) (v : String) :
    (newLiteral pos .tokenBool v = .ok (.BoolNode pos true) ↔ v = "true") ∧
    (v ≠ "true" → newLiteral pos .tokenBool v = .ok (.BoolNode pos false)) := by
  constructor
  · constructor
    · intro h
      simp only [newLiteral, Except.ok.injEq, Node.BoolNode.injEq, true_and] at h
      exact eq_of_beq h
    · intro h
      subst h
      simp [newLiteral]
  · intro h
    simp [newLiteral, h]

theorem newLiteral_bool_case_sensitive_witness :
    newLiteral 0 .tokenBool "True" = .ok (.BoolNode 0 false) ∧
    newLiteral 0 .tokenBool "true" = .ok (.BoolNode 0 true) :=
  ⟨(newLiteral_bool_case_sensitive 0 "True").2 (by decide),
   (newLiteral_bool_case_sensitive 0 "true").1.mpr rfl⟩

/-! ## Heap model of node allocation, for the aliasing claim

To talk about *sharing of child references*, nodes are placed in an explicit
store: a reference is an index into the store, `allocH` models `&T{...}`
(a fresh allocation at the end of the store), and each `Copy()` method is
transcribed reference-for-reference: a method that passes an existing child
pointer into the new struct keeps the child's reference; a method that calls
`child.Copy()` allocates a recursive copy.  The `fuel` argument is only a
structural-recursion device; every call below supplies enough. -/

inductive HNode where
  | ListH (pos : Int) (nodes : List Nat)
  | TextH (pos : Int) (txt : String)
  | VarH (pos : Int) (inner : Nat)
  | LookupH (pos : Int) (name : String)
  | StringH (pos : Int) (value : String)
  | BoolH (pos : Int) (value : Bool)
  | IntegerH (pos : Int) (value : Int)
  | FloatH (pos : Int) (value : Rat)
  | UnaryH (pos : Int) (value : Nat) (unaryVal : String)
  | AddH (pos : Int) (lhs rhs : Nat) (opVal : String)
  | MulH (pos : Int) (lhs rhs : Nat) (opVal : String)
  | MapExprH (pos : Int) (elems : List Nat)
  | MapElemH (pos : Int) (key value : Nat)
  | IndexH (pos : Int) (value index : Nat)
  | SetH (pos : Int) (lhs rhs : Nat)
  | CondH (kind : CondKind) (pos : Int) (guard body : Nat)
  | IfBlockH (pos : Int) (conds : List (Option Nat)) (elseBody : Option Nat)
  | ForH (pos : Int) (forExpr inExpr body : Nat)
  | BlockH (pos : Int) (name : String) (body : Nat)
deriving DecidableEq

abbrev HStore := List HNode

/-- A fresh allocation: the new node goes at the end of the store and its
reference is returned. -/
def allocH (s : HStore) (d : HNode) : HStore × Nat :=
  (s ++ [d], s.length)

/-- The child references a node holds. -/
def childRefsH : HNode → List Nat
  | .ListH _ ns => ns
  | .VarH _ i => [i]
  | .UnaryH _ v _ => [v]
  | .AddH _ l r _ => [l, r]
  | .MulH _ l r _ => [l, r]
  | .MapExprH _ es => es
  | .MapElemH _ k v => [k, v]
  | .IndexH _ v i => [v, i]
  | .SetH _ l r => [l, r]
  | .CondH _ _ g b => [g, b]
  | .IfBlockH _ cs e =>
    cs.filterMap id ++ (match e with | some x => [x] | none => [])
  | .ForH _ f i b => [f, i, b]
  | .BlockH _ _ b => [b]
  | _ => []

/-- References reachable from `r` (within `fuel` levels): `r` itself and
everything reachable through child references. -/
def reachH : Nat → HStore → Nat → List Nat
  | 0, _, r => [r]
  | fuel + 1, s, r =>
    r :: (match s[r]? with
          | some d => (childRefsH d).flatMap (reachH fuel s)
          | none => [])

mutual
/-- The `Copy()` methods at the reference level.  Cases that share children
(`VarNode`, `UnaryNode`, `AddExpr`, `MulExpr`, `MapElem`, `IndexExpr`) pass
the original child references into the fresh struct; the others copy
recursively.  `IfBlockNode.Copy` pre-sizes with `len` nil entries before
appending the copies. -/
def copyH : Nat → HStore → Nat → Option (HStore × Nat)
  | 0, _, _ => none
  | fuel + 1, s, r =>
    match s[r]? with
    | none => none
    | some d =>
      match d with
      | .ListH pos ns =>
        match copyRefsH fuel s ns with
        | none => none
        | some (s1, ns1) => some (allocH s1 (.ListH pos ns1))
      | .TextH pos txt => some (allocH s (.TextH pos txt))
      | .VarH pos inner => some (allocH s (.VarH pos inner))
      | .LookupH pos name => some (allocH s (.LookupH pos name))
      | .StringH pos v => some (allocH s (.StringH pos v))
      | .BoolH pos v => some (allocH s (.BoolH pos v))
      | .IntegerH pos v => some (allocH s (.IntegerH pos v))
      | .FloatH pos v => some (allocH s (.FloatH pos v))
      | .UnaryH pos v uv => some (allocH s (.UnaryH pos v uv))
      | .AddH pos lhs rhs op => some (allocH s (.AddH pos lhs rhs op))
      | .MulH pos lhs rhs op => some (allocH s (.MulH pos lhs rhs op))
      | .MapExprH pos es =>
        match copyRefsH fuel s es with
        | none => none
        | some (s1, es1) => some (allocH s1 (.MapExprH pos es1))
      | .MapElemH pos k v => some (allocH s (.MapElemH pos k v))
      | .IndexH pos v i => some (allocH s (.IndexH pos v i))
      | .SetH pos lhs rhs =>
        match copyH fuel s lhs with
        | none => none
        | some (s1, lhs1) =>
          match copyH fuel s1 rhs with
          | none => none
          | some (s2, rhs1) => some (allocH s2 (.SetH pos lhs1 rhs1))
      | .CondH k pos g b =>
        match copyH fuel s g with
        | none => none
        | some (s1, g1) =>
          match copyH fuel s1 b with
          | none => none
          | some (s2, b1) => some (allocH s2 (.CondH k pos g1 b1))
      | .IfBlockH pos cs e =>
        match copyCondsH fuel s cs with
        | none => none
        | some (s1, cs1) =>
          match e with
          | none =>
            some (allocH s1 (.IfBlockH pos (List.replicate cs.length none ++ cs1) none))
          | some er =>
            match copyH fuel s1 er with
            | none => none
            | some (s2, er1) =>
              some (allocH s2 (.IfBlockH pos (List.replicate cs.length none ++ cs1) (some er1)))
      | .ForH pos f i b =>
        match copyH fuel s f with
        | none => none
        | some (s1, f1) =>
          match copyH fuel s1 i with
          | none => none
          | some (s2, i1) =>
            match copyH fuel s2 b with
            | none => none
            | some (s3, b1) => some (allocH s3 (.ForH pos f1 i1 b1))
      | .BlockH pos name b =>
        match copyH fuel s b with
        | none => none
        | some (s1, b1) => some (allocH s1 (.BlockH pos name b1))

/-- Copies a slice of child references in order (`ListNode.CopyList`,
`MapExpr.Copy`). -/
def copyRefsH : Nat → HStore → List Nat → Option (HStore × List Nat)
  | _, s, [] => some (s, [])
  | 0, _, _ :: _ => none
  | fuel + 1, s, r :: rest =>
    match copyH fuel s r with
    | none => none
    | some (s1, r1) =>
      match copyRefsH fuel s1 rest with
      | none => none
      | some (s2, rs1) => some (s2, r1 :: rs1)

/-- Copies the `Conditionals` slice; calling `Copy` on a `nil` interface
entry panics in Go, modelled as `none`. -/
def copyCondsH : Nat → HStore → List (Option Nat) → Option (HStore × List (Option Nat))
  | _, s, [] => some (s, [])
  | 0, _, _ :: _ => none
  | _ + 1, _, none :: _ => none
  | fuel + 1, s, some r :: rest =>
    match copyH fuel s r with
    | none => none
    | some (s1, r1) =>
      match copyCondsH fuel s1 rest with
      | none => none
      | some (s2, rs1) => some (s2, some r1 :: rs1)
end

/-! ## Claim C2: deep copy must not alias children -/

/-- A store holding a `VarNode` (ref 1, child ref 0), an `AddExpr` (ref 4,
children 2 and 3), a `MulExpr` (ref 5, children 2 and 3) and a `MapElem`
(ref 8, children 6 and 7). -/
def demoStore : HStore :=
  [.LookupH 0 "x",
   .VarH 0 0,
   .IntegerH 0 1,
   .IntegerH 0 2,
   .AddH 0 2 3 "+",
   .MulH 0 2 3 "*",
   .StringH 0 "k",
   .StringH 0 "v",
   .MapElemH 0 6 7]

/-- Claim C2 (code defect): `Copy` does NOT allocate new instances for every
descendant.  `VarNode.Copy`, `AddExpr.Copy`, `MulExpr.Copy` and
`MapElem.Copy` build a fresh parent struct but pass the original child
references into it, so the copy and the original share children: a
reference reachable from the original (other than the roots) is also
reachable from the copy, for each of these variants. -/
theorem copy_aliases_children :
    copyH 9 demoStore 1 = some (demoStore ++ [.VarH 0 0], 9) ∧
    (0 ∈ reachH 9 (demoStore ++ [.VarH 0 0]) 9 ∧
      0 ∈ reachH 9 (demoStore ++ [.VarH 0 0]) 1) ∧
    copyH 9 demoStore 4 = some (demoStore ++ [.AddH 0 2 3 "+"], 9) ∧
    (2 ∈ reachH 9 (demoStore ++ [.AddH 0 2 3 "+"]) 9 ∧
      2 ∈ reachH 9 (demoStore ++ [.AddH 0 2 3 "+"]) 4) ∧
    copyH 9 demoStore 5 = some (demoStore ++ [.MulH 0 2 3 "*"], 9) ∧
    (3 ∈ reachH 9 (demoStore ++ [.MulH 0 2 3 "*"]) 9 ∧
      3 ∈ reachH 9 (demoStore ++ [.MulH 0 2 3 "*"]) 5) ∧
    copyH 9 demoStore 8 = some (demoStore ++ [.MapElemH 0 6 7], 9) ∧
    (6 ∈ reachH 9 (demoStore ++ [.MapElemH 0 6 7]) 9 ∧
      6 ∈ reachH 9 (demoStore ++ [.MapElemH 0 6 7]) 8) := by
  decide

/-! ## Context and context stack

The `Context`/`contextStack` implementation (`NewContext`,
`Context.lookup`, `contextStack.push`, `contextStack.lookup`) is not in the
visible source — only its tests are — so it is modelled from the spec. -/

/-- Modelled from the spec: a `Context` wraps one host value (record-like
named fields or a string-keyed map) behind a uniform name-lookup
capability; both shapes reduce to a finite association of string names to
values, looked up case-sensitively. -/
structure Context (V : Type) where
  entries : List (String × V)

/-- Modelled from the spec: `Context.lookup(name) -> (value, found)`; a
miss is `none` (`found = false`). -/
def ctxLookup {V : Type} (c : Context V) (name : String) : Option V :=
  (c.entries.find? (fun p => p.1 == name)).map (fun p => p.2)

/-- Modelled from the spec: `contextStack` is an ordered sequence of
`Context`s, append-only during setup. -/
abbrev contextStack (V : Type) := List (Context V)

/-- Modelled from the spec: `push` appends to the end of the ordered
layering. -/
def push {V : Type} (s : contextStack V) (c : Context V) : contextStack V :=
  s ++ [c]

/-- Modelled from the spec: `contextStack.lookup(name)` scans from the
most-recently-pushed context (the end of the sequence) backward toward the
first-pushed and returns the first match; if no layer contains `name` it
returns not-found. -/
def stackLookup {V : Type} : contextStack V → String → Option V
  | [], _ => none
  | ctx :: rest, name =>
    match stackLookup rest name with
    | some v => some v
    | none => ctxLookup ctx name

theorem stackLookup_push {V : Type} (s : contextStack V) (c : Context V)
    (name : String) :
    stackLookup (push s c) name =
      match ctxLookup c name with
      | some v => some v
      | none => stackLookup s name := by
  induction s with
  | nil =>
    show (match stackLookup [] name with
          | some v => some v
          | none => ctxLookup c name) = _
    cases ctxLookup c name <;> rfl
  | cons d rest ih =>
    show (match stackLookup (push rest c) name with
          | some v => some v
          | none => ctxLookup d name) = _
    rw [ih]
    cases ctxLookup c name with
    | some v => rfl
    | none => rfl

/-! ## Claim C4 -/

/-- Claim C4 (spec-modelled): `contextStack.lookup` scans layers from the
most-recently-pushed backward: a value present in the just-pushed layer is
returned (shadowing any earlier layer); a name absent from the just-pushed
layer falls back to the rest of the stack; and a name absent from every
layer is not found. -/
theorem contextStack_lookup_shadowing {V : Type} (s : contextStack V)
    (c : Context V) (name : String) :
    (∀ v, ctxLookup c name = some v → stackLookup (push s c) name = some v) ∧
    (ctxLookup c name = none → stackLookup (push s c) name = stackLookup s name) ∧
    ((∀ c2 ∈ s, ctxLookup c2 name = none) → stackLookup s name = none) := by
  refine ⟨?_, ?_, ?_⟩
  · intro v hv
    rw [stackLookup_push, hv]
  · intro hn
    rw [stackLookup_push, hn]
  · intro hall
    induction s with
    | nil => rfl
    | cons d rest ih =>
      show (match stackLookup rest name with
            | some v => some v
            | none => ctxLookup d name) = none
      rw [ih (fun c2 h2 => hall c2 (List.mem_cons_of_mem d h2))]
      exact hall d (List.mem_cons_self d rest)

/-- The first-pushed layer of the `TestMapMulti` scenario
(`{"name": ..., "Age": ...}`; values abbreviated to integers). -/
def demoCtxA : Context Int := ⟨[("name", 1), ("Age", 2)]⟩

/-- The second-pushed layer (`{"Foo": ...}`). -/
def demoCtxB : Context Int := ⟨[("Foo", 3)]⟩

/-- A second layer that shadows the key `"name"` of the first. -/
def demoCtxShadow : Context Int := ⟨[("name", 7)]⟩

theorem contextStack_lookup_shadowing_witness :
    stackLookup (push (push [] demoCtxA) demoCtxB) "Foo" = some 3 ∧
    stackLookup (push (push [] demoCtxA) demoCtxB) "name" = some 1 ∧
    stackLookup (push (push [] demoCtxA) demoCtxShadow) "name" = some 7 ∧
    stackLookup (push (push [] demoCtxA) demoCtxB) "Bar" = none := by
  refine ⟨?_, ?_, ?_, ?_⟩
  · exact (contextStack_lookup_shadowing (push [] demoCtxA) demoCtxB "Foo").1 3
      (by decide)
  · rw [(contextStack_lookup_shadowing (push [] demoCtxA) demoCtxB "name").2.1
      (by decide)]
    exact (contextStack_lookup_shadowing [] demoCtxA "name").1 1 (by decide)
  · exact (contextStack_lookup_shadowing (push [] demoCtxA) demoCtxShadow "name").1 7
      (by decide)
  · rw [(contextStack_lookup_shadowing (push [] demoCtxA) demoCtxB "Bar").2.1
      (by decide)]
    exact (contextStack_lookup_shadowing [demoCtxA] demoCtxA "Bar").2.2 (by decide)
